import Mathlib

/-!
Shallow embedding of `boltbench.go`, a pgbench-like benchmark over a
Bolt key/value store.  Buckets are modelled as association lists from
numeric keys to decoded record values (`keyFor` is `strconv.Itoa`, which
is injective on the non-negative ids the program uses, so keys are `Nat`;
`json.Marshal`/`json.Unmarshal` round-trip on the record structs, so a
bucket stores the record values themselves).
-/

namespace Boltbench

/-- Go struct `Account` (boltbench.go lines 38-43). -/
structure Account where
  AID : Int
  BID : Int
  Abalance : Int
  Filler : String
deriving DecidableEq, Repr

/-- Go struct `Teller` (boltbench.go lines 45-50). -/
structure Teller where
  TID : Int
  BID : Int
  Tbalance : Int
  Filler : String
deriving DecidableEq, Repr

/-- Go struct `Branche` (boltbench.go lines 52-56). -/
structure Branche where
  BID : Int
  Bbalance : Int
  Filler : String
deriving DecidableEq, Repr

/-- Go struct `History` (boltbench.go lines 58-65); `Mtime` is an opaque
timestamp modelled as a `Nat`. -/
structure History where
  TID : Int
  BID : Int
  AID : Int
  Delta : Int
  Mtime : Nat
  Filler : String
deriving DecidableEq, Repr

/-- A Bolt bucket: an association list from keys to record values. -/
abbrev Bucket (V : Type) := List (Nat × V)

/-- `Bucket.Get`: first value stored under key `k`, `none` when absent. -/
def bget {V : Type} : Bucket V → Nat → Option V
  | [], _ => none
  | (k', v) :: rest, k => if k' = k then some v else bget rest k

/-- `Bucket.Put`: replace the value under key `k`, or append a fresh pair. -/
def bput {V : Type} : Bucket V → Nat → V → Bucket V
  | [], k, v => [(k, v)]
  | (k', v') :: rest, k, v =>
      if k' = k then (k, v) :: rest else (k', v') :: bput rest k v

/-- Number of records in a bucket (what the cursor loop in `fillTable`
lines 81-88 counts). -/
def bcount {V : Type} (b : Bucket V) : Nat := b.length

/-! ### Seeding: `fillTable` (boltbench.go lines 79-108)

`fillTable` first counts the records already in the bucket with a cursor
scan (`created`), then, while `created < limit`, writes one batch of keys
`created .. min(created+1000, limit) - 1` (the Go loop condition is
`it < limit && it-created < 1000`) and afterwards adds 1000 to `created`
unconditionally. -/

/-- One `db.Update` batch of `fillTable` (lines 95-103): put
`genfunc it` under key `it` for `it = start, start+1, ..., stop-1`. -/
def batchPut {V : Type} (gen : Nat → V) (b : Bucket V) (start stop : Nat) :
    Bucket V :=
  if start < stop then
    batchPut gen (bput b start (gen start)) (start + 1) stop
  else b
termination_by stop - start

/-- The `for created < limit` loop of `fillTable` (lines 93-107):
run a batch for keys `created .. min(created+1000, limit) - 1`, then
`created += 1000`. -/
def fillLoop {V : Type} (gen : Nat → V) (b : Bucket V)
    (created limit : Nat) : Bucket V :=
  if created < limit then
    fillLoop gen (batchPut gen b created (min (created + 1000) limit))
      (created + 1000) limit
  else b
termination_by limit - created
decreasing_by omega

/-- `fillTable` (lines 79-108): count existing records, then fill the
bucket batchwise up to `limit`.  This is what the spec
calls `ensureFilled(collection, targetCount, generator)`. -/
def fillTable {V : Type} (gen : Nat → V) (b : Bucket V) (limit : Nat) :
    Bucket V :=
  fillLoop gen b (bcount b) limit

/-- The generator passed for accounts in `fill` (lines 115-117):
`Account{AID: it}` with Go zero values for the other fields. -/
def accountGen (it : Nat) : Account :=
  { AID := it, BID := 0, Abalance := 0, Filler := "" }

/-- The generator passed for tellers in `fill` (lines 119-121). -/
def tellerGen (it : Nat) : Teller :=
  { TID := it, BID := 0, Tbalance := 0, Filler := "" }

/-- The generator passed for branches in `fill` (lines 123-125). -/
def branchGen (it : Nat) : Branche :=
  { BID := it, Bbalance := 0, Filler := "" }

/-! ### The store and the two benchmark operations
(boltbench.go lines 128-201)

The whole Bolt database: the four buckets created in `main`
(lines 216-221) plus the native sequence counter of the history bucket
(`NextSequence` increments the counter and returns its new value). -/

structure DB where
  accounts : Bucket Account
  tellers : Bucket Teller
  branches : Bucket Branche
  history : Bucket History
  historySeq : Nat
deriving DecidableEq, Repr

/-- `readWrite` (lines 128-183), after the four random draws: the body of
the `db.Update` transaction, with each `panic` modelled as an error.
Note line 167 of the source writes the updated branch record back under
`keyFor(tid)`, not `keyFor(bid)`; the embedding reproduces this. -/
def readWrite (db : DB) (aid tid bid : Nat) (adelta : Int) (mtime : Nat) :
    Except String DB :=
  match bget db.accounts aid with
  | none => .error "account not found for key"
  | some acc =>
    let acc := { acc with Abalance := acc.Abalance + adelta }
    let accounts := bput db.accounts aid acc
    match bget db.tellers tid with
    | none => .error "teller not found for key"
    | some teller =>
      let teller := { teller with Tbalance := teller.Tbalance + adelta }
      let tellers := bput db.tellers tid teller
      match bget db.branches bid with
      | none => .error "branch not found for key"
      | some branch =>
        let branch := { branch with Bbalance := branch.Bbalance + adelta }
        let branches := bput db.branches tid branch
        let seq := db.historySeq + 1
        let history := bput db.history seq
          { AID := aid, TID := tid, BID := bid, Delta := adelta,
            Mtime := mtime, Filler := "" }
        .ok { accounts := accounts, tellers := tellers,
              branches := branches, history := history,
              historySeq := seq }

/-- `read` (lines 185-201), after the random draw of `aid`: the body of
the read-only `db.View` transaction, with the resulting store threaded
through explicitly so that the absence of writes is a theorem, not a
typing artifact. -/
def read (db : DB) (aid : Nat) : Except String (DB × Account) :=
  match bget db.accounts aid with
  | none => .error "account not found for key"
  | some acc => .ok (db, acc)

/-- The four random draws of `readWrite` (lines 129-132), as functions of
the raw outputs of `rand.IntN` / `rand.Int64N` (whose contract is that
`rand.IntN n` lies in `[0, n)`). -/
structure RWParams where
  aid : Nat
  tid : Nat
  bid : Nat
  adelta : Int
deriving DecidableEq, Repr

/-- Lines 129-132: `aid = rand.IntN(scale*100_000)`,
`tid = rand.IntN(scale*10)`, `bid = rand.IntN(scale*1)`,
`adelta = rand.Int64N(10000) - 5000`; `ra, rt, rb, rd` are the four raw
generator outputs. -/
def drawRWParams (ra rt rb rd : Nat) : RWParams :=
  { aid := ra, tid := rt, bid := rb, adelta := (rd : Int) - 5000 }

/-! ### The benchmark harness (boltbench.go lines 229-253)

`main` spawns `*concurrency` goroutines.  Each loops: a non-blocking
`select` on `finishTimer.Done()`; if the deadline has expired the worker
returns, otherwise it atomically increments the shared `iterations`
counter and executes one operation.  `wg.Wait()` joins all workers
before the metrics are computed.  The goroutines are modelled as an
interleaved transition system: a schedule is a list of worker indices,
and the `limit` of each worker is the iteration at which its deadline check
first observes expiry (the deadline, once expired, stays expired). -/

structure Worker where
  limit : Nat
  iters : Nat
  done : Bool
deriving DecidableEq, Repr

structure Harness where
  workers : List Worker
  counter : Nat
deriving DecidableEq, Repr

/-- One scheduled step of worker `i` (the loop body, lines 238-250):
check the deadline; if expired, return (`done := true`); otherwise
`atomic.AddUint64(&iterations, 1)` and run one operation. -/
def harnessStep (h : Harness) (i : Nat) : Harness :=
  match h.workers[i]? with
  | none => h
  | some w =>
    if w.done then h
    else if w.iters < w.limit then
      { workers := h.workers.set i { w with iters := w.iters + 1 },
        counter := h.counter + 1 }
    else
      { workers := h.workers.set i { w with done := true },
        counter := h.counter }

/-- Run the harness under a schedule (an arbitrary interleaving). -/
def harnessRun (h : Harness) : List Nat → Harness
  | [] => h
  | i :: rest => harnessRun (harnessStep h i) rest

/-- `wg.Add(*concurrency)` and the spawn loop (lines 234-252): one
worker per concurrency slot, counter zero. -/
def harnessInit (ns : List Nat) : Harness :=
  { workers := ns.map fun n => { limit := n, iters := 0, done := false },
    counter := 0 }

/-- Invariant of the harness: worker deadlines are fixed, the shared
counter equals the sum of per-worker iteration counts, and a worker that
has returned has executed exactly the iterations its deadline allowed. -/
def HarnessInv (ns : List Nat) (h : Harness) : Prop :=
  h.workers.map Worker.limit = ns ∧
  h.counter = (h.workers.map Worker.iters).sum ∧
  ∀ w ∈ h.workers, w.iters ≤ w.limit ∧ (w.done = true → w.iters = w.limit)

/-! ### Reported metrics (boltbench.go lines 262-263)

Go `time.Duration` is an integer number of nanoseconds;
`Duration.Microseconds()` divides by 1000 (truncating integer division)
and `Duration.Seconds()` converts to seconds.  The `float64` arithmetic
of the report lines is modelled over exact rationals. -/

/-- Go `Duration.Microseconds()` of a duration given in nanoseconds. -/
def durMicroseconds (ns : Nat) : Nat := ns / 1000

/-- Go `Duration.Seconds()` of a duration given in nanoseconds. -/
def durSeconds (ns : Nat) : ℚ := (ns : ℚ) / 1000000000

/-- Line 262:
`float64(benchtime.Microseconds())/float64(iterations)*float64(*concurrency)`. -/
def reportedLatency (benchNs iters conc : Nat) : ℚ :=
  (durMicroseconds benchNs : ℚ) / (iters : ℚ) * (conc : ℚ)

/-- Line 263: `float64(iterations)/benchtime.Seconds()`. -/
def reportedThroughput (benchNs iters : Nat) : ℚ :=
  (iters : ℚ) / durSeconds benchNs

/-- The formula stated by the spec: average latency (microseconds)
`= (T_microseconds / I) × C`. -/
def specLatency (Tus I C : ℚ) : ℚ := Tus / I * C

/-- The formula stated by the spec: throughput (requests/second)
`= I / T_seconds`. -/
def specThroughput (I Tsec : ℚ) : ℚ := I / Tsec


/-! ### Concrete stores used in closed evaluations -/

/-- A small seeded store: one account, two tellers, two branches, empty
history (as produced by seeding with targets 1, 2, 2). -/
def c1db : DB :=
  { accounts := [(0, accountGen 0)],
    tellers := [(0, tellerGen 0), (1, tellerGen 1)],
    branches := [(0, branchGen 0), (1, branchGen 1)],
    history := [],
    historySeq := 0 }

/-- The store committed by `readWrite c1db 0 1 0 7 0` (account 0,
teller 1, branch 0, delta 7): note the updated branch record lands under
key 1, the teller id. -/
def c5res : DB :=
  { accounts := [(0, { AID := 0, BID := 0, Abalance := 7, Filler := "" })],
    tellers := [(0, tellerGen 0),
                (1, { TID := 1, BID := 0, Tbalance := 7, Filler := "" })],
    branches := [(0, branchGen 0),
                 (1, { BID := 0, Bbalance := 7, Filler := "" })],
    history := [(1, { TID := 1, BID := 0, AID := 0, Delta := 7,
                      Mtime := 0, Filler := "" })],
    historySeq := 1 }

/-! ### General lemmas about the embedding -/

theorem bget_bput_same {V : Type} (b : Bucket V) (k : Nat) (v : V) :
    bget (bput b k v) k = some v := by
  induction b with
  | nil => simp [bput, bget]
  | cons hd tl ih =>
      obtain ⟨k', v'⟩ := hd
      by_cases h : k' = k <;> simp [bput, bget, h, ih]

theorem bget_bput_other {V : Type} (b : Bucket V) (k k' : Nat) (v : V)
    (h : k' ≠ k) : bget (bput b k v) k' = bget b k' := by
  have h' : ¬ (k = k') := fun hh => h hh.symm
  induction b with
  | nil => simp [bput, bget, h']
  | cons hd tl ih =>
      obtain ⟨k₀, v₀⟩ := hd
      by_cases h0 : k₀ = k
      · subst h0
        simp [bput, bget, h']
      · simp [bput, bget, h0, ih]

theorem bcount_bput {V : Type} (b : Bucket V) (k : Nat) (v : V) :
    bcount (bput b k v) =
      if (bget b k).isSome then bcount b else bcount b + 1 := by
  induction b with
  | nil => simp [bput, bget, bcount]
  | cons hd tl ih =>
      obtain ⟨k₀, v₀⟩ := hd
      by_cases h0 : k₀ = k
      · simp [bput, bget, bcount, h0]
      · simp only [bput, bget, bcount, List.length_cons, if_neg h0] at *
        rw [ih]
        by_cases hs : (bget tl k).isSome <;> simp [hs]

theorem batchPut_get {V : Type} (gen : Nat → V) (start stop : Nat)
    (b : Bucket V) (i : Nat) :
    bget (batchPut gen b start stop) i =
      if start ≤ i ∧ i < stop then some (gen i) else bget b i := by
  have H : ∀ n start (b : Bucket V), stop - start ≤ n →
      bget (batchPut gen b start stop) i =
        if start ≤ i ∧ i < stop then some (gen i) else bget b i := by
    intro n
    induction n with
    | zero =>
        intro start b hle
        rw [batchPut, if_neg (by omega), if_neg (by omega)]
    | succ n ih =>
        intro start b hle
        by_cases h : start < stop
        · rw [batchPut, if_pos h, ih (start + 1) _ (by omega)]
          by_cases hi : start + 1 ≤ i ∧ i < stop
          · rw [if_pos hi, if_pos (by omega)]
          · rw [if_neg hi]
            by_cases hi2 : i = start
            · subst hi2
              rw [bget_bput_same, if_pos ⟨le_refl _, h⟩]
            · rw [bget_bput_other _ _ _ _ hi2, if_neg (by omega)]
        · rw [batchPut, if_neg h, if_neg (by omega)]
  exact H (stop - start) start b (le_refl _)

theorem batchPut_count {V : Type} (gen : Nat → V) (start stop : Nat)
    (b : Bucket V)
    (hfresh : ∀ i, start ≤ i → i < stop → bget b i = none) :
    bcount (batchPut gen b start stop) = bcount b + (stop - start) := by
  have H : ∀ n start (b : Bucket V), stop - start ≤ n →
      (∀ i, start ≤ i → i < stop → bget b i = none) →
      bcount (batchPut gen b start stop) = bcount b + (stop - start) := by
    intro n
    induction n with
    | zero =>
        intro start b hle _
        rw [batchPut, if_neg (by omega)]
        omega
    | succ n ih =>
        intro start b hle hf
        by_cases h : start < stop
        · rw [batchPut, if_pos h]
          have hb' : ∀ i, start + 1 ≤ i → i < stop →
              bget (bput b start (gen start)) i = none := by
            intro i h1 h2
            rw [bget_bput_other _ _ _ _ (by omega)]
            exact hf i (by omega) h2
          rw [ih (start + 1) _ (by omega) hb']
          rw [bcount_bput, hf start (le_refl _) h]
          simp only [Option.isSome_none, Bool.false_eq_true, if_false]
          omega
        · rw [batchPut, if_neg h]
          omega
  exact H (stop - start) start b (le_refl _) hfresh

theorem fillLoop_get {V : Type} (gen : Nat → V) (limit created : Nat)
    (b : Bucket V) (i : Nat) :
    bget (fillLoop gen b created limit) i =
      if created ≤ i ∧ i < limit then some (gen i) else bget b i := by
  have H : ∀ n created (b : Bucket V), limit - created ≤ n →
      bget (fillLoop gen b created limit) i =
        if created ≤ i ∧ i < limit then some (gen i) else bget b i := by
    intro n
    induction n with
    | zero =>
        intro created b hle
        rw [fillLoop, if_neg (by omega), if_neg (by omega)]
    | succ n ih =>
        intro created b hle
        by_cases h : created < limit
        · rw [fillLoop, if_pos h, ih (created + 1000) _ (by omega),
            batchPut_get]
          by_cases h1 : created + 1000 ≤ i ∧ i < limit
          · rw [if_pos h1, if_pos (by omega)]
          · rw [if_neg h1]
            by_cases h2 : created ≤ i ∧ i < min (created + 1000) limit
            · rw [if_pos h2, if_pos (by omega)]
            · rw [if_neg h2, if_neg (by omega)]
        · rw [fillLoop, if_neg h, if_neg (by omega)]
  exact H (limit - created) created b (le_refl _)

theorem fillLoop_count {V : Type} (gen : Nat → V) (limit created : Nat)
    (b : Bucket V)
    (hfresh : ∀ i, created ≤ i → i < limit → bget b i = none) :
    bcount (fillLoop gen b created limit) = bcount b + (limit - created) := by
  have H : ∀ n created (b : Bucket V), limit - created ≤ n →
      (∀ i, created ≤ i → i < limit → bget b i = none) →
      bcount (fillLoop gen b created limit) = bcount b + (limit - created) := by
    intro n
    induction n with
    | zero =>
        intro created b hle _
        rw [fillLoop, if_neg (by omega)]
        omega
    | succ n ih =>
        intro created b hle hf
        by_cases h : created < limit
        · rw [fillLoop, if_pos h]
          have hb' : ∀ i, created + 1000 ≤ i → i < limit →
              bget (batchPut gen b created (min (created + 1000) limit)) i
                = none := by
            intro i h1 h2
            rw [batchPut_get, if_neg (by omega)]
            exact hf i (by omega) h2
          rw [ih (created + 1000) _ (by omega) hb']
          rw [batchPut_count _ _ _ _
            (fun i h1 h2 => hf i h1 (by omega))]
          omega
        · rw [fillLoop, if_neg h]
          omega
  exact H (limit - created) created b (le_refl _) hfresh

/-- When the cursor count is already at least `limit`, the `for` loop of
`fillTable` never runs: the bucket is returned unchanged. -/
theorem fillTable_noop_of_count_ge {V : Type} (gen : Nat → V)
    (b : Bucket V) (limit : Nat) (h : limit ≤ bcount b) :
    fillTable gen b limit = b := by
  rw [fillTable, fillLoop, if_neg (by omega)]

theorem mem_of_getElem?_eq {α : Type} (l : List α) (i : Nat) (a : α)
    (h : l[i]? = some a) : a ∈ l := by
  have hi : i < l.length := by
    by_contra hc
    rw [List.getElem?_eq_none (by omega)] at h
    cases h
  rw [List.getElem?_eq_getElem hi] at h
  cases h
  exact List.getElem_mem hi

theorem set_self {α : Type} : ∀ (l : List α) (i : Nat) (x : α),
    l[i]? = some x → l.set i x = l
  | [], _, _, h => by cases h
  | a :: t, 0, x, h => by
      simp only [List.getElem?_cons_zero, Option.some.injEq] at h
      simp [List.set, h]
  | a :: t, n + 1, x, h => by
      simp only [List.getElem?_cons_succ] at h
      simp [List.set, set_self t n x h]

theorem sum_map_set {α : Type} (f : α → Nat) :
    ∀ (l : List α) (i : Nat) (w w' : α), l[i]? = some w →
      ((l.set i w').map f).sum + f w = (l.map f).sum + f w'
  | [], _, _, _, h => by cases h
  | a :: t, 0, w, w', h => by
      simp only [List.getElem?_cons_zero, Option.some.injEq] at h
      subst h
      simp only [List.set, List.map_cons, List.sum_cons]
      omega
  | a :: t, n + 1, w, w', h => by
      simp only [List.getElem?_cons_succ] at h
      have ht := sum_map_set f t n w w' h
      simp only [List.set, List.map_cons, List.sum_cons]
      omega

theorem harnessInit_inv (ns : List Nat) :
    HarnessInv ns (harnessInit ns) := by
  refine ⟨?_, ?_, ?_⟩
  · induction ns with
    | nil => rfl
    | cons hd tl ih =>
        simp only [harnessInit, List.map_cons] at *
        rw [ih]
  · induction ns with
    | nil => rfl
    | cons hd tl ih =>
        simp only [harnessInit, List.map_cons, List.sum_cons] at *
        omega
  · intro w hw
    simp only [harnessInit, List.mem_map] at hw
    obtain ⟨n, _, rfl⟩ := hw
    simp

theorem harnessStep_inv (ns : List Nat) (h : Harness) (i : Nat)
    (hinv : HarnessInv ns h) : HarnessInv ns (harnessStep h i) := by
  obtain ⟨hlim, hcnt, hmem⟩ := hinv
  cases hw : h.workers[i]? with
  | none =>
      have hstep : harnessStep h i = h := by
        unfold harnessStep
        rw [hw]
      rw [hstep]
      exact ⟨hlim, hcnt, hmem⟩
  | some w =>
      have hstep : harnessStep h i =
          if w.done = true then h
          else if w.iters < w.limit then
            { workers := h.workers.set i { w with iters := w.iters + 1 },
              counter := h.counter + 1 }
          else
            { workers := h.workers.set i { w with done := true },
              counter := h.counter } := by
        unfold harnessStep
        rw [hw]
      rw [hstep]
      have hwmem : w ∈ h.workers := mem_of_getElem?_eq _ _ _ hw
      have hwlim : (h.workers.map Worker.limit)[i]? = some w.limit := by
        rw [List.getElem?_map, hw]
        rfl
      by_cases hd : w.done = true
      · rw [if_pos hd]
        exact ⟨hlim, hcnt, hmem⟩
      · rw [if_neg hd]
        by_cases hlt : w.iters < w.limit
        · rw [if_pos hlt]
          refine ⟨?_, ?_, ?_⟩
          · show List.map Worker.limit
                (h.workers.set i { w with iters := w.iters + 1 }) = ns
            rw [List.map_set]
            show (h.workers.map Worker.limit).set i w.limit = ns
            rw [set_self _ _ _ hwlim]
            exact hlim
          · show h.counter + 1 =
              ((h.workers.set i { w with iters := w.iters + 1 }).map
                Worker.iters).sum
            have hs : ((h.workers.set i
                  { w with iters := w.iters + 1 }).map Worker.iters).sum
                    + w.iters =
                (h.workers.map Worker.iters).sum + (w.iters + 1) :=
              sum_map_set Worker.iters h.workers i w
                { w with iters := w.iters + 1 } hw
            omega
          · intro w' hw'
            rcases List.mem_or_eq_of_mem_set hw' with h1 | h1
            · exact hmem w' h1
            · subst h1
              refine ⟨?_, ?_⟩
              · show w.iters + 1 ≤ w.limit
                omega
              · intro hdd
                exact absurd hdd hd
        · rw [if_neg hlt]
          have hwi : w.iters = w.limit := by
            have := (hmem w hwmem).1
            omega
          refine ⟨?_, ?_, ?_⟩
          · show List.map Worker.limit
                (h.workers.set i { w with done := true }) = ns
            rw [List.map_set]
            show (h.workers.map Worker.limit).set i w.limit = ns
            rw [set_self _ _ _ hwlim]
            exact hlim
          · show h.counter =
              ((h.workers.set i { w with done := true }).map
                Worker.iters).sum
            have hs : ((h.workers.set i
                  { w with done := true }).map Worker.iters).sum
                    + w.iters =
                (h.workers.map Worker.iters).sum + w.iters :=
              sum_map_set Worker.iters h.workers i w
                { w with done := true } hw
            omega
          · intro w' hw'
            rcases List.mem_or_eq_of_mem_set hw' with h1 | h1
            · exact hmem w' h1
            · subst h1
              exact ⟨le_of_eq hwi, fun _ => hwi⟩

theorem harnessRun_inv (ns : List Nat) (h : Harness) :
    ∀ (sched : List Nat), HarnessInv ns h →
      HarnessInv ns (harnessRun h sched) := by
  intro sched
  induction sched generalizing h with
  | nil => exact fun hh => hh
  | cons hd tl ih =>
      intro hh
      exact ih (harnessStep h hd) (harnessStep_inv ns h hd hh)

/-! ### Verification of the specified properties -/

/-- C1: the spec states that after a committed ReadWrite with delta `d`
on ids `(a, t, b)`, `branch[b].balance` has increased by exactly `d`.
The code instead writes the updated branch record back under key `t`
(line 167 uses `keyFor(tid)`), contradicting the comment right above it
(`UPDATE pgbench_branches ... WHERE bid = :bid`).  Concretely, with
`a = 0, t = 1, b = 0, d = 7` on a seeded two-branch store, the committed
transaction leaves branch 0 at balance 0 — not the required 0 + 7 — and
deposits a record carrying balance 7 under branch key 1. -/
theorem c1_branch_balance_not_updated :
    (readWrite c1db 0 1 0 7 0).map
        (fun s => ((bget s.branches 0).map Branche.Bbalance,
                   (bget s.branches 1).map Branche.Bbalance))
      = Except.ok (some 0, some 7) ∧
    (0 : Int) ≠ 0 + 7 :=
  ⟨rfl, by decide⟩

/-- C2 (counterexample): the claim quantifies over every collection, but
for a collection holding one record under key 5 and target 1,
`ensureFilled` returns immediately (count 1 is at least the target) with
the collection unchanged, so key 0 is absent afterwards: the collection
does not contain exactly the records for keys 0..0. -/
theorem c2_counterexample :
    bcount [(5, accountGen 5)] = 1 ∧
    fillTable accountGen [(5, accountGen 5)] 1 = [(5, accountGen 5)] ∧
    bget (fillTable accountGen [(5, accountGen 5)] 1) 0 = none := by
  refine ⟨rfl, ?_, ?_⟩ <;> simp [fillTable, fillLoop, bcount, bget]

/-- C2 (amended): for every collection whose `k` records occupy exactly
the keys `0..k-1` with `k ≤ target`, after
`ensureFilled(collection, target, generator)` returns, the collection
contains exactly the records for keys `0..target-1`: it has `target`
records, every key below `target` is present (so decodable into the
expected type), every key at or above `target` is absent, each key in
`k..target-1` holds `generator(index)`, and each key below `k` keeps its
prior value. -/
theorem c2_fillTable_exact {V : Type} (gen : Nat → V) (b : Bucket V)
    (k limit : Nat) (hcount : bcount b = k)
    (hpresent : ∀ i, i < k → (bget b i).isSome = true)
    (habsent : ∀ i, k ≤ i → bget b i = none)
    (hk : k ≤ limit) :
    bcount (fillTable gen b limit) = limit ∧
    (∀ i, i < limit → (bget (fillTable gen b limit) i).isSome = true) ∧
    (∀ i, limit ≤ i → bget (fillTable gen b limit) i = none) ∧
    (∀ i, k ≤ i → i < limit →
        bget (fillTable gen b limit) i = some (gen i)) ∧
    (∀ i, i < k → bget (fillTable gen b limit) i = bget b i) := by
  subst hcount
  refine ⟨?_, ?_, ?_, ?_, ?_⟩
  · rw [fillTable, fillLoop_count]
    · omega
    · exact fun i h1 _ => habsent i h1
  · intro i hi
    rw [fillTable, fillLoop_get]
    by_cases h : bcount b ≤ i
    · rw [if_pos ⟨h, hi⟩]
      rfl
    · rw [if_neg (by omega)]
      exact hpresent i (by omega)
  · intro i hi
    rw [fillTable, fillLoop_get, if_neg (by omega)]
    exact habsent i (by omega)
  · intro i h1 h2
    rw [fillTable, fillLoop_get, if_pos ⟨h1, h2⟩]
  · intro i hi
    rw [fillTable, fillLoop_get, if_neg (by omega)]

theorem c2_witness :
    bcount (fillTable accountGen [(0, accountGen 0)] 2) = 2 ∧
    bget (fillTable accountGen [(0, accountGen 0)] 2) 1 =
      some (accountGen 1) ∧
    bget (fillTable accountGen [(0, accountGen 0)] 2) 2 = none := by
  have h := c2_fillTable_exact accountGen [(0, accountGen 0)] 1 2 rfl
    (by intro i hi
        have h0 : i = 0 := by omega
        subst h0
        rfl)
    (by intro i hi
        have h0 : ¬((0 : Nat) = i) := by omega
        simp [bget, h0])
    (by omega)
  exact ⟨h.1, h.2.2.2.1 1 (by omega) (by omega), h.2.2.1 2 (by omega)⟩

/-- C3: seeding is idempotent — whenever the first `ensureFilled` leaves
the collection with at least `target` records, a second call with the
same target returns immediately and the final collection contents are
identical: nothing is written and no record is modified. -/
theorem c3_fillTable_idempotent {V : Type} (gen : Nat → V) (b : Bucket V)
    (limit : Nat) (h : limit ≤ bcount (fillTable gen b limit)) :
    fillTable gen (fillTable gen b limit) limit = fillTable gen b limit :=
  fillTable_noop_of_count_ge gen (fillTable gen b limit) limit h

theorem c3_witness :
    2 ≤ bcount (fillTable accountGen [] 2) ∧
    fillTable accountGen (fillTable accountGen [] 2) 2 =
      fillTable accountGen [] 2 := by
  have hc : 2 ≤ bcount (fillTable accountGen [] 2) := by
    simp [fillTable, fillLoop, batchPut, bput, bget, bcount]
  exact ⟨hc, c3_fillTable_idempotent accountGen [] 2 hc⟩

/-- C4: seeding is resumable and frame-preserving — if the collection
already holds `k < target` records under exactly the keys `0..k-1`, then
`ensureFilled(target)` results in exactly `target` records, every
pre-existing record is untouched (same value under the same key), and
the missing keys `k..target-1` are filled from the generator. -/
theorem c4_fillTable_resumable {V : Type} (gen : Nat → V) (b : Bucket V)
    (k limit : Nat) (hcount : bcount b = k)
    (hpresent : ∀ i, i < k → (bget b i).isSome = true)
    (habsent : ∀ i, k ≤ i → bget b i = none)
    (hk : k < limit) :
    bcount (fillTable gen b limit) = limit ∧
    (∀ i, i < k → bget (fillTable gen b limit) i = bget b i) ∧
    (∀ i, k ≤ i → i < limit →
        bget (fillTable gen b limit) i = some (gen i)) := by
  subst hcount
  refine ⟨?_, ?_, ?_⟩
  · rw [fillTable, fillLoop_count]
    · omega
    · exact fun i h1 _ => habsent i h1
  · intro i hi
    rw [fillTable, fillLoop_get, if_neg (by omega)]
  · intro i h1 h2
    rw [fillTable, fillLoop_get, if_pos ⟨h1, h2⟩]

theorem c4_witness :
    bcount (fillTable accountGen [(0, accountGen 0)] 2) = 2 ∧
    bget (fillTable accountGen [(0, accountGen 0)] 2) 0 =
      some (accountGen 0) ∧
    bget (fillTable accountGen [(0, accountGen 0)] 2) 1 =
      some (accountGen 1) := by
  have h := c4_fillTable_resumable accountGen [(0, accountGen 0)] 1 2 rfl
    (by intro i hi
        have h0 : i = 0 := by omega
        subst h0
        rfl)
    (by intro i hi
        have h0 : ¬((0 : Nat) = i) := by omega
        simp [bget, h0])
    (by omega)
  refine ⟨h.1, ?_, h.2.2 1 (by omega) (by omega)⟩
  rw [h.2.1 0 (by omega)]
  rfl

/-- C5: each successful ReadWrite appends exactly one History record,
under the freshly allocated sequence number `historySeq + 1`: the new
record carries the drawn `(a, t, b, d)`, every previously written
history record is unchanged (never updated or deleted), the history
record count grows by exactly one, and the invariant that every history
key is at most the current sequence number is preserved — so sequence
numbers are strictly increasing and unique, and over a run the history
count grows by exactly the number of ReadWrite operations. -/
theorem c5_history_append (db db' : DB) (aid tid bid : Nat)
    (adelta : Int) (mtime : Nat)
    (hinv : ∀ i, (bget db.history i).isSome = true → i ≤ db.historySeq)
    (hok : readWrite db aid tid bid adelta mtime = Except.ok db') :
    db'.historySeq = db.historySeq + 1 ∧
    bget db'.history db'.historySeq =
      some { AID := aid, TID := tid, BID := bid, Delta := adelta,
             Mtime := mtime, Filler := "" } ∧
    (∀ i, i ≤ db.historySeq → bget db'.history i = bget db.history i) ∧
    bcount db'.history = bcount db.history + 1 ∧
    (∀ i, (bget db'.history i).isSome = true → i ≤ db'.historySeq) := by
  have hfree : bget db.history (db.historySeq + 1) = none := by
    cases hh : bget db.history (db.historySeq + 1) with
    | none => rfl
    | some x =>
        have := hinv (db.historySeq + 1) (by rw [hh]; rfl)
        omega
  revert hok
  unfold readWrite
  cases hacc : bget db.accounts aid with
  | none => intro hok; cases hok
  | some acc =>
    cases htel : bget db.tellers tid with
    | none => intro hok; cases hok
    | some teller =>
      cases hbr : bget db.branches bid with
      | none => intro hok; cases hok
      | some branch =>
        intro hok
        injection hok with hok
        subst hok
        refine ⟨rfl, ?_, ?_, ?_, ?_⟩
        · exact bget_bput_same db.history (db.historySeq + 1) _
        · intro i hi
          exact bget_bput_other db.history (db.historySeq + 1) i _
            (by omega)
        · show bcount (bput db.history (db.historySeq + 1) _) =
            bcount db.history + 1
          rw [bcount_bput, hfree]
          rfl
        · intro i hi
          show i ≤ db.historySeq + 1
          by_cases hie : i = db.historySeq + 1
          · omega
          · rw [bget_bput_other db.history (db.historySeq + 1) i _ hie]
              at hi
            have := hinv i hi
            omega

theorem c5_witness :
    readWrite c1db 0 1 0 7 0 = Except.ok c5res ∧
    bcount c5res.history = bcount c1db.history + 1 := by
  have hok : readWrite c1db 0 1 0 7 0 = Except.ok c5res := rfl
  refine ⟨hok, (c5_history_append c1db c5res 0 1 0 7 0 ?_ hok).2.2.2.1⟩
  intro i hi
  simp [c1db, bget] at hi

/-- C6: modelling the worker goroutines as an arbitrary interleaving in
which each worker performs its loop — non-blocking deadline check, then
one counted operation — until its check observes the expired deadline:
the harness holds exactly one worker per concurrency slot, and once every
worker has returned (the join barrier), the shared counter equals the sum
of the per-worker iteration counts, which is the sum of the iteration
allowances fixed by the deadline, and is stable for the metrics. -/
theorem c6_harness_counter (ns : List Nat) (sched : List Nat)
    (hdone : ∀ w ∈ (harnessRun (harnessInit ns) sched).workers,
        w.done = true) :
    (harnessRun (harnessInit ns) sched).workers.length = ns.length ∧
    (harnessRun (harnessInit ns) sched).counter =
      ((harnessRun (harnessInit ns) sched).workers.map Worker.iters).sum ∧
    (harnessRun (harnessInit ns) sched).counter = ns.sum := by
  obtain ⟨hlim, hcnt, hmem⟩ :=
    harnessRun_inv ns (harnessInit ns) sched (harnessInit_inv ns)
  refine ⟨?_, hcnt, ?_⟩
  · exact (List.length_map _ _).symm.trans (congrArg List.length hlim)
  · have hmaps : (harnessRun (harnessInit ns) sched).workers.map
        Worker.iters =
        (harnessRun (harnessInit ns) sched).workers.map Worker.limit :=
      List.map_congr_left (fun w hw => (hmem w hw).2 (hdone w hw))
    rw [hcnt, hmaps, hlim]

theorem c6_witness :
    (harnessRun (harnessInit [1, 0]) [0, 0, 1]).workers.length = 2 ∧
    (harnessRun (harnessInit [1, 0]) [0, 0, 1]).counter = 1 := by
  have h := c6_harness_counter [1, 0] [0, 0, 1] (by decide)
  refine ⟨h.1, ?_⟩
  rw [h.2.2]
  decide

/-- C7: for a positive iteration count, the reported average latency
equals `(T_microseconds / I) × C` and the reported throughput equals
`I / T_seconds`, where `T` is the configured benchmark duration (in Go,
an integer number of nanoseconds). -/
theorem c7_metrics (benchNs iters conc : Nat) (_h : 0 < iters) :
    reportedLatency benchNs iters conc =
      specLatency (durMicroseconds benchNs : ℚ) (iters : ℚ) (conc : ℚ) ∧
    reportedThroughput benchNs iters =
      specThroughput (iters : ℚ) (durSeconds benchNs) :=
  ⟨rfl, rfl⟩

theorem c7_witness :
    0 < 2 ∧
    reportedLatency 60000000000 2 24 =
      specLatency (durMicroseconds 60000000000 : ℚ) (2 : ℚ) (24 : ℚ) :=
  ⟨by decide, (c7_metrics 60000000000 2 24 (by decide)).1⟩

/-- C8: given the range contracts of the four independent generator
calls (`rand.IntN n` yields a value in `[0, n)`), the drawn account id
lies in `[0, scale × 100000)`, the teller id in `[0, scale × 10)`, the
branch id in `[0, scale)`, and the delta in `[-5000, 5000)`. -/
theorem c8_param_ranges (scale ra rt rb rd : Nat)
    (ha : ra < scale * 100000) (ht : rt < scale * 10)
    (hb : rb < scale) (hd : rd < 10000) :
    (drawRWParams ra rt rb rd).aid < scale * 100000 ∧
    (drawRWParams ra rt rb rd).tid < scale * 10 ∧
    (drawRWParams ra rt rb rd).bid < scale ∧
    (-5000 : Int) ≤ (drawRWParams ra rt rb rd).adelta ∧
    (drawRWParams ra rt rb rd).adelta < 5000 := by
  refine ⟨ha, ht, hb, ?_, ?_⟩ <;>
    · simp only [drawRWParams]
      omega

theorem c8_witness :
    (5 : Nat) < 1 * 100000 ∧
    (drawRWParams 5 3 0 0).adelta = -5000 ∧
    (-5000 : Int) ≤ (drawRWParams 5 3 0 0).adelta ∧
    (drawRWParams 5 3 0 0).adelta < 5000 := by
  have h := c8_param_ranges 1 5 3 0 0 (by decide) (by decide) (by decide)
    (by decide)
  exact ⟨by decide, by decide, h.2.2.2.1, h.2.2.2.2⟩

/-- C9: the Read operation returns the store unchanged along with the
stored account record when the chosen key is present — no collection is
mutated — and fails with the fatal account-not-found error exactly when
the key is absent. -/
theorem c9_read_no_mutation (db : DB) (aid : Nat) :
    (∀ acc, bget db.accounts aid = some acc →
        read db aid = Except.ok (db, acc)) ∧
    (bget db.accounts aid = none →
        read db aid = Except.error "account not found for key") := by
  constructor
  · intro acc hacc
    unfold read
    rw [hacc]
  · intro hacc
    unfold read
    rw [hacc]

theorem c9_witness :
    read c1db 0 = Except.ok (c1db, accountGen 0) :=
  (c9_read_no_mutation c1db 0).1 (accountGen 0) rfl

/-- C10: the seeder determines its resume point solely by counting the
records currently in the collection: whenever the collection already
holds at least `limit` records — under any keys whatsoever —
`fillTable` performs no write and returns the collection unchanged. -/
theorem c10_count_based_resume {V : Type} (gen : Nat → V) (b : Bucket V)
    (limit : Nat) (h : limit ≤ bcount b) :
    fillTable gen b limit = b :=
  fillTable_noop_of_count_ge gen b limit h

theorem c10_witness :
    1 ≤ bcount [(5, accountGen 5)] ∧
    fillTable accountGen [(5, accountGen 5)] 1 = [(5, accountGen 5)] :=
  ⟨by decide, c10_count_based_resume accountGen [(5, accountGen 5)] 1
    (by decide)⟩

end Boltbench
